import Mathlib

/-
Verification of the joint-histogram / mutual-information engine in
ImageRegistration/vtkImageMutualInformation.cxx.

Modelling conventions:
- C `double` values are modelled by `ℚ` (exact arithmetic); the kernels only
  perform field operations, comparisons, floors and truncations on them, all
  of which are exact on the rationals.  A separate small IEEE-style value
  type `FpVal` is used for the one claim that is specifically about the
  behaviour of NaN and infinities in the clamp comparisons.
- Machine integers (`int`, `vtkIdType`) are modelled by `ℤ`/`ℕ`.
- A per-worker joint-histogram buffer (`vtkIdType *Data`) is modelled as a
  total function `ℤ → ℕ` from flat cell offsets to counts; the allocated
  region is the offsets `0 ≤ i < numBins[0]*numBins[1]`.
- The stencil-masked voxel stream produced by `vtkImageStencilIterator` is
  modelled as a list of `(inMask, valueA, valueB)` triples: the kernels
  process the in-mask entries in order and skip the rest.
- The entropy reduction (`ReduceRequestData`) produces real numbers; it is
  modelled over `ℝ` with `Real.log`.
-/

/- The rational-number operations are `@[irreducible]` by default, which
blocks the `decide` tactic's reduction of concrete kernel runs in the
elaborator (the kernel itself reduces them fine).  Restore reducibility so
that concrete histograms can be evaluated by `decide`. -/
set_option allowUnsafeReducibility true
attribute [semireducible] Rat.add Rat.mul Rat.inv Rat.sub Rat.div Rat.neg

namespace VtkMI

/-- C `static_cast<int>` applied to a real-valued quantity: truncation
toward zero (`Rat.floor` is used rather than the `⌊⌋` notation so that the
definition evaluates by kernel reduction). -/
def ctrunc (q : ℚ) : ℤ := if 0 ≤ q then q.floor else -(-q).floor

/-- Generic-kernel binning for one axis, mirroring
`vtkImageMutualInformationExecute` (lines 474-516): the voxel value is
shifted by `-binOrigin`, multiplied by `1/binSpacing`, clamped by the two
ternary comparisons `x > xmin ? x : xmin` (with `xmin = 0`) and
`x < xmax ? x : xmax` (with `xmax = numBins-1`), and finally cast by
`static_cast<int>(x + 0.5)`. -/
def genBin (o s : ℚ) (numBins : ℕ) (v : ℚ) : ℤ :=
  let xmax : ℚ := (numBins : ℚ) - 1
  let x1 : ℚ := (v + (-o)) * (1 / s)
  let x2 : ℚ := if 0 < x1 then x1 else 0
  let x3 : ℚ := if x2 < xmax then x2 else xmax
  ctrunc (x3 + 1 / 2)

/-- Increment one cell of a flat histogram buffer (`(*outPtr1)++`). -/
def bump (h : ℤ → ℕ) (i : ℤ) : ℤ → ℕ :=
  fun j => if j = i then h j + 1 else h j

/-- One voxel step of the generic kernel: a masked-out voxel is skipped, an
in-mask voxel increments the flat offset `yi*outIncY + xi` where
`outIncY = numBins[1]` (line 482 and line 514 of the source). -/
def genStep (nx ny : ℕ) (o0 s0 o1 s1 : ℚ) (h : ℤ → ℕ) (vx : Bool × ℚ × ℚ) :
    ℤ → ℕ :=
  if vx.1 then
    bump h (genBin o1 s1 ny vx.2.2 * (ny : ℤ) + genBin o0 s0 nx vx.2.1)
  else h

/-- The generic affine kernel `vtkImageMutualInformationExecute`: fold the
per-voxel step over the masked voxel stream. -/
def genAccum (nx ny : ℕ) (o0 s0 o1 s1 : ℚ) (vs : List (Bool × ℚ × ℚ))
    (h : ℤ → ℕ) : ℤ → ℕ :=
  vs.foldl (genStep nx ny o0 s0 o1 s1) h

/-- Pre-scaled kernel binning for one axis (lines 559-563): the raw byte
value, clamped above by `x < xmax ? x : xmax`. -/
def preBin (maxB : ℕ) (v : ℕ) : ℕ := if v < maxB then v else maxB

/-- One voxel step of the pre-scaled kernel; the flat offset is
`y*outIncY + x` with `outIncY = numBins[1]` (lines 545, 565). -/
def preStep (nx ny : ℕ) (h : ℤ → ℕ) (vx : Bool × ℕ × ℕ) : ℤ → ℕ :=
  if vx.1 then
    bump h ((preBin (ny - 1) vx.2.2 * ny + preBin (nx - 1) vx.2.1 : ℕ) : ℤ)
  else h

/-- The pre-scaled fast kernel `vtkImageMutualInformationExecutePreScaled`. -/
def preAccum (nx ny : ℕ) (vs : List (Bool × ℕ × ℕ)) (h : ℤ → ℕ) : ℤ → ℕ :=
  vs.foldl (preStep nx ny) h

/-- The fast-path selection test of `ThreadedRequestData` (lines 1018-1021):
`vtkMath::Floor(binOrigin + 0.5) == 0` and
`vtkMath::Floor(binOrigin + binSpacing*max + 0.5) == max` on both axes
(`vtkMath::Floor` on a double is the mathematical floor). -/
def preScaledCheck (o0 s0 o1 s1 : ℚ) (nx ny : ℕ) : Prop :=
  (o0 + 1 / 2).floor = 0 ∧ (o1 + 1 / 2).floor = 0 ∧
  (o0 + s0 * ((nx : ℚ) - 1) + 1 / 2).floor = (nx : ℤ) - 1 ∧
  (o1 + s1 * ((ny : ℚ) - 1) + 1 / 2).floor = (ny : ℤ) - 1

instance (o0 s0 o1 s1 : ℚ) (nx ny : ℕ) :
    Decidable (preScaledCheck o0 s0 o1 s1 nx ny) := by
  unfold preScaledCheck; exact inferInstance

/-- Embed unsigned-char voxels into the generic kernel's double-valued
voxel stream. -/
def castVoxels (vs : List (Bool × ℕ × ℕ)) : List (Bool × ℚ × ℚ) :=
  vs.map (fun vx => (vx.1, (vx.2.1 : ℚ), (vx.2.2 : ℚ)))

/-- Kernel dispatch of `ThreadedRequestData` (lines 1018-1041) for the case
where both inputs are unsigned char: the pre-scaled kernel runs when the
integer-endpoint rounding check passes, otherwise the generic kernel runs. -/
def runUChar (nx ny : ℕ) (o0 s0 o1 s1 : ℚ) (vs : List (Bool × ℕ × ℕ))
    (h : ℤ → ℕ) : ℤ → ℕ :=
  if preScaledCheck o0 s0 o1 s1 nx ny then preAccum nx ny vs h
  else genAccum nx ny o0 s0 o1 s1 (castVoxels vs) h

/-- Number of in-mask voxels in a voxel stream. -/
def inMaskCount (vs : List (Bool × ℕ × ℕ)) : ℕ :=
  (vs.filter (fun vx => vx.1)).length

/-- Sum of a flat histogram buffer over its allocated cells
`0 ≤ i < nx*ny` (the buffer allocated in `ThreadedRequestData`,
lines 969-978). -/
def totalBuf (nx ny : ℕ) (h : ℤ → ℕ) : ℕ :=
  ∑ i ∈ Finset.range (nx * ny), h (i : ℤ)

/-- How `ReduceRequestData` addresses the per-thread buffers: row `iy` is
read starting at flat offset `nx*iy` (line 821), so the reduction's cell
`(ix, iy)` is the flat offset `nx*iy + ix`. -/
def cellAt (nx : ℕ) (h : ℤ → ℕ) (ix iy : ℕ) : ℕ :=
  h ((nx : ℤ) * iy + ix)

/-- Row total `a` accumulated by the reduction for row `iy`
(lines 814-828). -/
def rowSum (nx : ℕ) (h : ℤ → ℕ) (iy : ℕ) : ℕ :=
  ∑ ix ∈ Finset.range nx, cellAt nx h ix iy

/-- Column marginal `xHist[ix]` accumulated across all rows
(lines 856-859). -/
def colSum (nx ny : ℕ) (h : ℤ → ℕ) (ix : ℕ) : ℕ :=
  ∑ iy ∈ Finset.range ny, cellAt nx h ix iy

/-- The reduction's total voxel count `count = Σ xHist[ix]`
(lines 869-873). -/
def totalCount (nx ny : ℕ) (h : ℤ → ℕ) : ℕ :=
  ∑ ix ∈ Finset.range nx, colSum nx ny h ix

/-- One guarded entropy term: `if (dc > 0) { S += dc*log(dc); }`. -/
noncomputable def plogp (c : ℕ) : ℝ :=
  if 0 < c then (c : ℝ) * Real.log (c : ℝ) else 0

/-- The `xEntropy` accumulator `Σ b·log(b)` over the column marginals
(lines 869-879). -/
noncomputable def xSac (nx ny : ℕ) (h : ℤ → ℕ) : ℝ :=
  ∑ ix ∈ Finset.range nx, plogp (colSum nx ny h ix)

/-- The `yEntropy` accumulator `Σ a·log(a)` over the row totals
(lines 848-853). -/
noncomputable def ySac (nx ny : ℕ) (h : ℤ → ℕ) : ℝ :=
  ∑ iy ∈ Finset.range ny, plogp (rowSum nx h iy)

/-- The `xyEntropy` accumulator `Σ c·log(c)` over all joint cells
(lines 855-865). -/
noncomputable def xySac (nx ny : ℕ) (h : ℤ → ℕ) : ℝ :=
  ∑ iy ∈ Finset.range ny, ∑ ix ∈ Finset.range nx, plogp (cellAt nx h ix iy)

/-- Entropy normalization applied to each accumulator when the count is
nonzero: `H = -S/dc + log(dc)` (lines 898-902). -/
noncomputable def entH (s : ℝ) (n : ℕ) : ℝ :=
  -s / (n : ℝ) + Real.log (n : ℝ)

/-- The scalar outputs of `ReduceRequestData` (lines 891-912): the pair
`(MutualInformation, NormalizedMutualInformation)`.  The minimum values
`(0, 1)` are kept when the total count is zero; otherwise the three
entropies are normalized and combined. -/
noncomputable def reduceMI (nx ny : ℕ) (h : ℤ → ℕ) : ℝ × ℝ :=
  if totalCount nx ny h = 0 then (0, 1)
  else
    (entH (xSac nx ny h) (totalCount nx ny h)
       + entH (ySac nx ny h) (totalCount nx ny h)
       - entH (xySac nx ny h) (totalCount nx ny h),
     (entH (xSac nx ny h) (totalCount nx ny h)
       + entH (ySac nx ny h) (totalCount nx ny h))
       / entH (xySac nx ny h) (totalCount nx ny h))

/-- Observable outcome of one `ReduceRequestData` invocation (lines
759-915).  `rowsWritten` counts histogram rows actually stored to the
output image, `diagnostics` counts `vtkErrorMacro` reports.  The row-copy
switch (lines 835-842) copies the row for a supported output scalar type
and reports `Execute: Unknown output ScalarType` otherwise; in both cases
the loop continues, the entropy accumulation is unaffected, the two scalar
members are assigned unconditionally (lines 911-912) and the method
returns 1 (line 914). -/
structure ReduceOutcome where
  rowsWritten : ℕ
  diagnostics : ℕ
  mi : ℝ
  nmi : ℝ
  ret : ℤ

/-- `ReduceRequestData` with the output-type dispatch made explicit:
`supported` tells whether the configured output scalar type is handled by
the `vtkTemplateAliasMacro` expansion (the update extent is taken to cover
all `ny` rows, as in a normal run). -/
noncomputable def reduceFull (supported : Bool) (nx ny : ℕ) (h : ℤ → ℕ) :
    ReduceOutcome where
  rowsWritten := if supported then ny else 0
  diagnostics := if supported then 0 else ny
  mi := (reduceMI nx ny h).1
  nmi := (reduceMI nx ny h).2
  ret := 1

/-- The fields of `vtkImageMutualInformation` that the constructor
(lines 230-250) initializes. -/
structure MIState where
  numberOfBins : ℕ × ℕ
  binOrigin : ℚ × ℚ
  binSpacing : ℚ × ℚ
  mutualInformation : ℝ
  normalizedMutualInformation : ℝ

/-- The constructor's default values: 64×64 bins, origin (0,0), spacing
(1,1), `MutualInformation = 0.0`, `NormalizedMutualInformation = 0.0`. -/
noncomputable def initialState : MIState where
  numberOfBins := (64, 64)
  binOrigin := (0, 0)
  binSpacing := (1, 1)
  mutualInformation := 0
  normalizedMutualInformation := 0

/-- An IEEE-754-style scalar for the one claim about non-finite inputs:
a finite value (exact arithmetic), the two infinities, or NaN. -/
inductive FpVal where
  | fin : ℚ → FpVal
  | pinf : FpVal
  | ninf : FpVal
  | nan : FpVal
deriving DecidableEq

/-- IEEE `<` comparison: every comparison with NaN is false. -/
def FpVal.flt : FpVal → FpVal → Bool
  | .nan, _ => false
  | _, .nan => false
  | .fin a, .fin b => decide (a < b)
  | .fin _, .pinf => true
  | .fin _, .ninf => false
  | .ninf, .ninf => false
  | .ninf, _ => true
  | .pinf, _ => false

/-- IEEE addition on the modelled values (finite arithmetic exact). -/
def FpVal.fadd : FpVal → FpVal → FpVal
  | .nan, _ => .nan
  | _, .nan => .nan
  | .pinf, .ninf => .nan
  | .ninf, .pinf => .nan
  | .pinf, _ => .pinf
  | _, .pinf => .pinf
  | .ninf, _ => .ninf
  | _, .ninf => .ninf
  | .fin a, .fin b => .fin (a + b)

/-- IEEE multiplication on the modelled values (finite arithmetic
exact; infinity times zero is NaN). -/
def FpVal.fmul : FpVal → FpVal → FpVal
  | .nan, _ => .nan
  | _, .nan => .nan
  | .pinf, .pinf => .pinf
  | .pinf, .ninf => .ninf
  | .ninf, .pinf => .ninf
  | .ninf, .ninf => .pinf
  | .pinf, .fin b => if 0 < b then .pinf else if b < 0 then .ninf else .nan
  | .fin a, .pinf => if 0 < a then .pinf else if a < 0 then .ninf else .nan
  | .ninf, .fin b => if 0 < b then .ninf else if b < 0 then .pinf else .nan
  | .fin a, .ninf => if 0 < a then .ninf else if a < 0 then .pinf else .nan
  | .fin a, .fin b => .fin (a * b)

/-- `static_cast<int>` applied to the modelled value.  The cast is only
reached on finite values in the kernel (the clamp always produces a finite
value); the non-finite cases are given the arbitrary value 0. -/
def FpVal.toInt : FpVal → ℤ
  | .fin q => ctrunc q
  | _ => 0

/-- The generic kernel's per-axis binning (lines 496-512) at IEEE-value
fidelity: shift, scale, the two ternary comparisons, and the final cast.
On `FpVal.fin` inputs this coincides with `genBin`. -/
def genBinF (o s : ℚ) (numBins : ℕ) (v : FpVal) : ℤ :=
  let xmax : FpVal := .fin ((numBins : ℚ) - 1)
  let x1 := FpVal.fmul (FpVal.fadd v (.fin (-o))) (.fin (1 / s))
  let x2 := if FpVal.flt (.fin 0) x1 then x1 else .fin 0
  let x3 := if FpVal.flt x2 xmax then x2 else xmax
  FpVal.toInt (FpVal.fadd x3 (.fin (1 / 2)))

/-- One voxel step of the generic kernel at IEEE-value fidelity. -/
def genStepF (nx ny : ℕ) (o0 s0 o1 s1 : ℚ) (h : ℤ → ℕ)
    (vx : Bool × FpVal × FpVal) : ℤ → ℕ :=
  if vx.1 then
    bump h (genBinF o1 s1 ny vx.2.2 * (ny : ℤ) + genBinF o0 s0 nx vx.2.1)
  else h

/-- Swap the two images: each voxel's pair of intensities is swapped. -/
def swapVoxels (vs : List (Bool × ℚ × ℚ)) : List (Bool × ℚ × ℚ) :=
  vs.map (fun vx => (vx.1, vx.2.2, vx.2.1))

/-- Concrete input for C1: a single in-mask voxel with values (0, 1),
run with `numBins = [1, 2]` and the identity bin mapping. -/
def vsC1 : List (Bool × ℕ × ℕ) := [(true, 0, 1)]

/-- Concrete merged histogram for the C2 witness: one 1×1 bin holding
count 2. -/
def hC2 : ℤ → ℕ := fun j => if j = 0 then 2 else 0

/-- Concrete input for C4: sixteen in-mask voxels, image A all zeros and
image B all ones (two 4×4×1 byte images). -/
def vsC4 : List (Bool × ℕ × ℕ) := List.replicate 16 (true, 0, 1)

/-- The histogram the engine accumulates for the C4 scenario: 2×2 bins,
identity mapping, both inputs unsigned char (the pre-scaled kernel is
selected). -/
def hC4 : ℤ → ℕ := runUChar 2 2 0 1 0 1 vsC4 (fun _ => 0)

/-- Concrete input for C5: a single in-mask voxel with both values 0. -/
def vsC5 : List (Bool × ℕ × ℕ) := [(true, 0, 0)]

/-- Concrete input for C7: two in-mask voxels with value pairs (0,1) and
(1,2), run with 3×3 bins, x-axis spacing 1 and y-axis spacing 2. -/
def vsC7 : List (Bool × ℚ × ℚ) := [(true, 0, 1), (true, 1, 2)]

/-- Histogram of the original C7 run. -/
def hC7a : ℤ → ℕ := genAccum 3 3 0 1 0 2 vsC7 (fun _ => 0)

/-- Histogram of the swapped C7 run (same configuration). -/
def hC7b : ℤ → ℕ := genAccum 3 3 0 1 0 2 (swapVoxels vsC7) (fun _ => 0)

/-- Concrete merged histogram for C8: 2×2 bins with one count in each of
the two diagonal cells. -/
def hC8 : ℤ → ℕ := fun j => if j = 0 ∨ j = 3 then 1 else 0

theorem ratFloor_eq_floor (q : ℚ) : q.floor = ⌊q⌋ := by
  rw [Rat.floor_def, Rat.floor_def']

theorem ctrunc_eq_floor {q : ℚ} (h : 0 ≤ q) : ctrunc q = ⌊q⌋ := by
  rw [ctrunc, if_pos h, ratFloor_eq_floor]

theorem genBin_eq (o s : ℚ) {nb : ℕ} (hnb : 1 ≤ nb) (v : ℚ) :
    genBin o s nb v = ⌊min (max ((v - o) / s) 0) ((nb : ℚ) - 1) + 1 / 2⌋ := by
  have hone : (1 : ℚ) ≤ (nb : ℚ) := by exact_mod_cast hnb
  simp only [genBin]
  have e1 : (v + -o) * (1 / s) = (v - o) / s := by ring
  rw [e1]
  have e2 : (if 0 < (v - o) / s then (v - o) / s else 0) = max ((v - o) / s) 0 := by
    rcases le_or_lt ((v - o) / s) 0 with h | h
    · rw [if_neg (not_lt.mpr h), max_eq_right h]
    · rw [if_pos h, max_eq_left h.le]
  rw [e2]
  have e3 : (if max ((v - o) / s) 0 < (nb : ℚ) - 1 then max ((v - o) / s) 0
      else (nb : ℚ) - 1) = min (max ((v - o) / s) 0) ((nb : ℚ) - 1) := by
    rcases lt_or_le (max ((v - o) / s) 0) ((nb : ℚ) - 1) with h | h
    · rw [if_pos h, min_eq_left h.le]
    · rw [if_neg (not_lt.mpr h), min_eq_right h]
  rw [e3]
  apply ctrunc_eq_floor
  have h0 : (0 : ℚ) ≤ min (max ((v - o) / s) 0) ((nb : ℚ) - 1) :=
    le_min (le_max_right _ _) (by linarith)
  linarith

theorem genBin_nonneg (o s : ℚ) {nb : ℕ} (hnb : 1 ≤ nb) (v : ℚ) :
    0 ≤ genBin o s nb v := by
  rw [genBin_eq o s hnb v]
  have hone : (1 : ℚ) ≤ (nb : ℚ) := by exact_mod_cast hnb
  have h0 : (0 : ℚ) ≤ min (max ((v - o) / s) 0) ((nb : ℚ) - 1) :=
    le_min (le_max_right _ _) (by linarith)
  exact Int.floor_nonneg.mpr (by linarith)

theorem genBin_le (o s : ℚ) {nb : ℕ} (hnb : 1 ≤ nb) (v : ℚ) :
    genBin o s nb v ≤ (nb : ℤ) - 1 := by
  rw [genBin_eq o s hnb v]
  have h1 : min (max ((v - o) / s) 0) ((nb : ℚ) - 1) + 1 / 2 < ((nb : ℤ) : ℚ) := by
    have := min_le_right (max ((v - o) / s) 0) ((nb : ℚ) - 1)
    push_cast
    linarith
  have h2 := Int.floor_lt.mpr h1
  omega

theorem plogp_eq (c : ℕ) : plogp c = (c : ℝ) * Real.log (c : ℝ) := by
  unfold plogp
  rcases Nat.eq_zero_or_pos c with h | h
  · subst h; simp
  · rw [if_pos h]

theorem plogp_of_le_one {c : ℕ} (hc : c ≤ 1) : plogp c = 0 := by
  interval_cases c
  · simp [plogp]
  · simp [plogp]

theorem reduceMI_count_zero {nx ny : ℕ} {h : ℤ → ℕ}
    (h0 : totalCount nx ny h = 0) : reduceMI nx ny h = (0, 1) := by
  unfold reduceMI
  rw [if_pos h0]

/-- C6: in the generic affine kernel, the bin coordinate on an axis with
`nb ≥ 1` bins equals `truncate(clamp((v - binOrigin)/binSpacing, 0, nb-1)
+ 0.5)` — the clamp happens in real-valued space before the `+0.5`
truncation — and the resulting index always lies in `[0, nb-1]`, so no
in-mask voxel is dropped for being out of range. -/
theorem C6_generic_bin_clamped_in_range (o s v : ℚ) (nb : ℕ) (hnb : 1 ≤ nb) :
    genBin o s nb v = ctrunc (min (max ((v - o) / s) 0) ((nb : ℚ) - 1) + 1 / 2) ∧
    0 ≤ genBin o s nb v ∧ genBin o s nb v ≤ (nb : ℤ) - 1 := by
  have hone : (1 : ℚ) ≤ (nb : ℚ) := by exact_mod_cast hnb
  have h0 : (0 : ℚ) ≤ min (max ((v - o) / s) 0) ((nb : ℚ) - 1) :=
    le_min (le_max_right _ _) (by linarith)
  refine ⟨?_, genBin_nonneg o s hnb v, genBin_le o s hnb v⟩
  rw [genBin_eq o s hnb v, ctrunc_eq_floor (by linarith)]

/-- Witness for C6 at a concrete out-of-range input: 100 with 64 bins and
the identity mapping saturates to bin 63. -/
theorem C6_witness : 1 ≤ 64 ∧
    (genBin 0 1 64 100 = ctrunc (min (max ((100 - 0) / 1) 0) ((64 : ℚ) - 1) + 1 / 2) ∧
     0 ≤ genBin 0 1 64 100 ∧ genBin 0 1 64 100 ≤ (64 : ℤ) - 1) :=
  ⟨by decide, C6_generic_bin_clamped_in_range 0 1 100 64 (by decide)⟩

/-- C3: a run whose reduction sees a total count of zero completes with
exactly `MutualInformation = 0.0` and `NormalizedMutualInformation = 1.0`;
the `if (count)` guard means no division is performed in that case. -/
theorem C3_zero_count_floor (nx ny : ℕ) (h : ℤ → ℕ)
    (h0 : totalCount nx ny h = 0) : reduceMI nx ny h = (0, 1) :=
  reduceMI_count_zero h0

/-- Witness for C3: the empty 64×64 histogram (e.g. an empty mask). -/
theorem C3_witness : totalCount 64 64 (fun _ => 0) = 0 ∧
    reduceMI 64 64 (fun _ => 0) = (0, 1) :=
  ⟨by simp [totalCount, colSum, cellAt],
   C3_zero_count_floor 64 64 _ (by simp [totalCount, colSum, cellAt])⟩

/-- C9: the constructor initializes `NormalizedMutualInformation` to 0.0,
which is strictly below the floor value 1.0 that a completed run with zero
count produces, so the documented `NMI ≥ 1` property does not hold for the
pre-first-run state. -/
theorem C9_initial_nmi_below_floor :
    initialState.normalizedMutualInformation = 0 ∧
    reduceMI 64 64 (fun _ => 0) = (0, 1) ∧
    initialState.normalizedMutualInformation < (reduceMI 64 64 (fun _ => 0)).2 := by
  have hz : reduceMI 64 64 (fun _ => 0) = (0, 1) :=
    reduceMI_count_zero (by simp [totalCount, colSum, cellAt])
  refine ⟨rfl, hz, ?_⟩
  rw [hz]
  norm_num [initialState]

/-- C1: evaluation at the failing input.  With `numBins = [1, 2]`, the
identity bin mapping and a single in-mask unsigned-char voxel pair (0, 1),
the pre-scaled kernel is selected and writes its sole increment at flat
offset `yi*numBins[1] + xi = 2`, outside the allocated
`numBins[0]*numBins[1] = 2` cells — so the histogram total over the
allocated buffer is 0, not the in-mask count 1. -/
theorem C1_stride_bug_eval :
    preScaledCheck 0 1 0 1 1 2 ∧
    inMaskCount vsC1 = 1 ∧
    totalBuf 1 2 (runUChar 1 2 0 1 0 1 vsC1 (fun _ => 0)) = 0 ∧
    runUChar 1 2 0 1 0 1 vsC1 (fun _ => 0) 2 = 1 := by decide

/-- C2: for a run whose reduction sees a nonzero total count `N`, each of
the three entropies is computed from its accumulator `S = Σ c·log(c)`
(column marginals, row marginals, joint cells — a term contributes only
when `c > 0`, which coincides with the unguarded sum since `0·log 0 = 0`)
as `H = -S/N + log(N)`, and the outputs are exactly
`MI = H(A) + H(B) - H(A,B)` and `NMI = (H(A) + H(B)) / H(A,B)`, with no
further clamping. -/
theorem C2_entropy_normalization (nx ny : ℕ) (h : ℤ → ℕ)
    (hN : totalCount nx ny h ≠ 0) :
    reduceMI nx ny h =
      ((-(∑ ix ∈ Finset.range nx,
            (colSum nx ny h ix : ℝ) * Real.log (colSum nx ny h ix))
          / (totalCount nx ny h : ℝ) + Real.log (totalCount nx ny h))
        + (-(∑ iy ∈ Finset.range ny,
              (rowSum nx h iy : ℝ) * Real.log (rowSum nx h iy))
            / (totalCount nx ny h : ℝ) + Real.log (totalCount nx ny h))
        - (-(∑ iy ∈ Finset.range ny, ∑ ix ∈ Finset.range nx,
              (cellAt nx h ix iy : ℝ) * Real.log (cellAt nx h ix iy))
            / (totalCount nx ny h : ℝ) + Real.log (totalCount nx ny h)),
       ((-(∑ ix ∈ Finset.range nx,
             (colSum nx ny h ix : ℝ) * Real.log (colSum nx ny h ix))
           / (totalCount nx ny h : ℝ) + Real.log (totalCount nx ny h))
         + (-(∑ iy ∈ Finset.range ny,
               (rowSum nx h iy : ℝ) * Real.log (rowSum nx h iy))
             / (totalCount nx ny h : ℝ) + Real.log (totalCount nx ny h)))
        / (-(∑ iy ∈ Finset.range ny, ∑ ix ∈ Finset.range nx,
              (cellAt nx h ix iy : ℝ) * Real.log (cellAt nx h ix iy))
            / (totalCount nx ny h : ℝ) + Real.log (totalCount nx ny h))) := by
  unfold reduceMI
  rw [if_neg hN]
  unfold entH xSac ySac xySac
  simp only [plogp_eq]

/-- Witness for C2: a 1×1 histogram holding count 2. -/
theorem C2_witness : totalCount 1 1 hC2 ≠ 0 ∧
    reduceMI 1 1 hC2 =
      ((-(∑ ix ∈ Finset.range 1,
            (colSum 1 1 hC2 ix : ℝ) * Real.log (colSum 1 1 hC2 ix))
          / (totalCount 1 1 hC2 : ℝ) + Real.log (totalCount 1 1 hC2))
        + (-(∑ iy ∈ Finset.range 1,
              (rowSum 1 hC2 iy : ℝ) * Real.log (rowSum 1 hC2 iy))
            / (totalCount 1 1 hC2 : ℝ) + Real.log (totalCount 1 1 hC2))
        - (-(∑ iy ∈ Finset.range 1, ∑ ix ∈ Finset.range 1,
              (cellAt 1 hC2 ix iy : ℝ) * Real.log (cellAt 1 hC2 ix iy))
            / (totalCount 1 1 hC2 : ℝ) + Real.log (totalCount 1 1 hC2)),
       ((-(∑ ix ∈ Finset.range 1,
             (colSum 1 1 hC2 ix : ℝ) * Real.log (colSum 1 1 hC2 ix))
           / (totalCount 1 1 hC2 : ℝ) + Real.log (totalCount 1 1 hC2))
         + (-(∑ iy ∈ Finset.range 1,
               (rowSum 1 hC2 iy : ℝ) * Real.log (rowSum 1 hC2 iy))
             / (totalCount 1 1 hC2 : ℝ) + Real.log (totalCount 1 1 hC2)))
        / (-(∑ iy ∈ Finset.range 1, ∑ ix ∈ Finset.range 1,
              (cellAt 1 hC2 ix iy : ℝ) * Real.log (cellAt 1 hC2 ix iy))
            / (totalCount 1 1 hC2 : ℝ) + Real.log (totalCount 1 1 hC2))) :=
  ⟨by decide, C2_entropy_normalization 1 1 hC2 (by decide)⟩

theorem genBin_id {nb : ℕ} (hnb : 1 ≤ nb) (v : ℕ) :
    genBin 0 1 nb (v : ℚ) = ((preBin (nb - 1) v : ℕ) : ℤ) := by
  rw [genBin_eq 0 1 hnb]
  have hmax : max (((v : ℚ) - 0) / 1) 0 = (v : ℚ) := by
    rw [sub_zero, div_one]
    exact max_eq_left (by positivity)
  rw [hmax]
  unfold preBin
  rcases lt_or_le v (nb - 1) with h | h
  · have hq : (v : ℚ) ≤ (nb : ℚ) - 1 := by
      have h2 : (v : ℤ) ≤ (nb : ℤ) - 1 := by omega
      have h3 : ((v : ℤ) : ℚ) ≤ (((nb : ℤ) - 1 : ℤ) : ℚ) := by exact_mod_cast h2
      push_cast at h3 ⊢
      linarith
    rw [if_pos h, min_eq_left hq, Int.floor_eq_iff]
    constructor
    · push_cast; linarith
    · push_cast; linarith
  · have hq : (nb : ℚ) - 1 ≤ (v : ℚ) := by
      have h2 : (nb : ℤ) - 1 ≤ (v : ℤ) := by omega
      have h3 : (((nb : ℤ) - 1 : ℤ) : ℚ) ≤ ((v : ℤ) : ℚ) := by exact_mod_cast h2
      push_cast at h3 ⊢
      linarith
    rw [if_neg (by omega), min_eq_right hq]
    have hcast : ((nb - 1 : ℕ) : ℤ) = (nb : ℤ) - 1 := by omega
    rw [hcast, Int.floor_eq_iff]
    constructor
    · push_cast; linarith
    · push_cast; linarith

theorem genStep_id {nx ny : ℕ} (hx : 1 ≤ nx) (hy : 1 ≤ ny) (h : ℤ → ℕ)
    (vx : Bool × ℕ × ℕ) :
    genStep nx ny 0 1 0 1 h (vx.1, (vx.2.1 : ℚ), (vx.2.2 : ℚ))
      = preStep nx ny h vx := by
  unfold genStep preStep
  rcases vx with ⟨m, a, b⟩
  cases m
  · rfl
  · simp only [if_pos]
    rw [genBin_id hy b, genBin_id hx a]
    push_cast
    ring_nf

/-- C5 (amended): when the bin mapping is exactly the identity
(`binOrigin = 0`, `binSpacing = 1` on both axes), the pre-scaled fast
kernel produces a histogram identical to the generic affine kernel's on
the same unsigned-char inputs, mask and order — cell for cell.  (The
claim's original trigger — the integer-endpoint rounding check — also
admits non-identity mappings for which the two kernels differ, see the
counterexample.) -/
theorem C5_fastpath_identity_equiv (nx ny : ℕ) (vs : List (Bool × ℕ × ℕ))
    (h : ℤ → ℕ) (hx : 1 ≤ nx) (hy : 1 ≤ ny) :
    genAccum nx ny 0 1 0 1 (castVoxels vs) h = preAccum nx ny vs h := by
  induction vs generalizing h with
  | nil => rfl
  | cons v t ih =>
    simp only [castVoxels, List.map_cons, genAccum, preAccum, List.foldl_cons]
    rw [genStep_id hx hy h v]
    exact ih (preStep nx ny h v)

/-- Counterexample for C5 as stated: with `binOrigin = -0.5`,
`binSpacing = 1` and 2×2 bins, the selection check passes
(`Floor(-0.5+0.5) = 0`, `Floor(-0.5+1+0.5) = 1`), yet on the single voxel
pair (0, 0) the generic kernel bins `(0+0.5)/1 = 0.5` to index 1 on both
axes (flat offset 3) while the pre-scaled kernel bins the raw byte 0 to
index 0 (flat offset 0): the two histograms are not bit-identical. -/
theorem C5_counterexample :
    preScaledCheck (-(1/2)) 1 (-(1/2)) 1 2 2 ∧
    genAccum 2 2 (-(1/2)) 1 (-(1/2)) 1 (castVoxels vsC5) (fun _ => 0) 0 = 0 ∧
    preAccum 2 2 vsC5 (fun _ => 0) 0 = 1 ∧
    genAccum 2 2 (-(1/2)) 1 (-(1/2)) 1 (castVoxels vsC5) (fun _ => 0) 3 = 1 := by
  decide

/-- Witness for C5 at a concrete input (value 200 saturates to bin 1 under
both kernels with 2×2 bins). -/
theorem C5_witness : 1 ≤ 2 ∧
    genAccum 2 2 0 1 0 1 (castVoxels [(true, 3, 200)]) (fun _ => 0)
      = preAccum 2 2 [(true, 3, 200)] (fun _ => 0) :=
  ⟨by decide,
   C5_fastpath_identity_equiv 2 2 [(true, 3, 200)] (fun _ => 0)
     (by decide) (by decide)⟩

theorem cellAt_bump (n : ℕ) (h : ℤ → ℕ) (i : ℤ) (ix iy : ℕ) :
    cellAt n (bump h i) ix iy =
      if (n : ℤ) * iy + ix = i then cellAt n h ix iy + 1 else cellAt n h ix iy := by
  unfold cellAt bump
  rfl

theorem flat_unique {n : ℕ} {p q ix iy : ℤ} (hq1 : 0 ≤ q) (hq2 : q < n)
    (hx1 : 0 ≤ ix) (hx2 : ix < n)
    (heq : (n : ℤ) * iy + ix = p * n + q) : p = iy ∧ q = ix := by
  have h1 : (n : ℤ) * (iy - p) = q - ix := by linear_combination heq
  have hdvd : (n : ℤ) ∣ q - ix := ⟨iy - p, h1.symm⟩
  have habs : |q - ix| < n := abs_lt.mpr (by omega)
  have h0 : q - ix = 0 := Int.eq_zero_of_abs_lt_dvd hdvd habs
  have h2 : (n : ℤ) * (iy - p) = 0 := by omega
  have h3 : iy - p = 0 := by
    rcases mul_eq_zero.mp h2 with h | h
    · omega
    · exact h
  omega

theorem accum_swap_cell {n : ℕ} (hn : 1 ≤ n) (o s : ℚ)
    (vs : List (Bool × ℚ × ℚ)) (h1 h2 : ℤ → ℕ)
    (hinv : ∀ ix iy : ℕ, ix < n → iy < n → cellAt n h2 ix iy = cellAt n h1 iy ix) :
    ∀ ix iy : ℕ, ix < n → iy < n →
      cellAt n (genAccum n n o s o s (swapVoxels vs) h2) ix iy
        = cellAt n (genAccum n n o s o s vs h1) iy ix := by
  induction vs generalizing h1 h2 with
  | nil => exact hinv
  | cons v t ih =>
    simp only [swapVoxels, List.map_cons, genAccum, List.foldl_cons] at *
    apply ih
    intro ix iy hix hiy
    rcases v with ⟨m, a, b⟩
    cases m
    · exact hinv ix iy hix hiy
    · simp only [genStep, if_pos]
      rw [cellAt_bump, cellAt_bump, hinv ix iy hix hiy]
      have hba1 := genBin_nonneg o s hn b
      have hba2 := genBin_le o s hn b
      have haa1 := genBin_nonneg o s hn a
      have haa2 := genBin_le o s hn a
      have hiff : ((n : ℤ) * iy + ix = genBin o s n a * n + genBin o s n b)
          ↔ ((n : ℤ) * ix + iy = genBin o s n b * n + genBin o s n a) := by
        constructor
        · intro he
          obtain ⟨hpa, hqb⟩ := flat_unique (p := genBin o s n a) (q := genBin o s n b)
            hba1 (by omega) (by omega) (by omega) he
          rw [hqb, hpa]
          ring
        · intro he
          obtain ⟨hpb, hqa⟩ := flat_unique (p := genBin o s n b) (q := genBin o s n a)
            haa1 (by omega) (by omega) (by omega) he
          rw [hpb, hqa]
          ring
      rw [if_congr hiff rfl rfl]

theorem totalCount_eq_sum_rows (nx ny : ℕ) (h : ℤ → ℕ) :
    totalCount nx ny h = ∑ iy ∈ Finset.range ny, rowSum nx h iy := by
  unfold totalCount colSum rowSum
  rw [Finset.sum_comm]

theorem reduceMI_transpose {n : ℕ} (h1 h2 : ℤ → ℕ)
    (ht : ∀ ix iy : ℕ, ix < n → iy < n → cellAt n h2 ix iy = cellAt n h1 iy ix) :
    reduceMI n n h2 = reduceMI n n h1 := by
  have hrow : ∀ iy ∈ Finset.range n, rowSum n h2 iy = colSum n n h1 iy := by
    intro iy hiy
    unfold rowSum colSum
    exact Finset.sum_congr rfl
      (fun ix hix => ht ix iy (Finset.mem_range.mp hix) (Finset.mem_range.mp hiy))
  have hcol : ∀ ix ∈ Finset.range n, colSum n n h2 ix = rowSum n h1 ix := by
    intro ix hix
    unfold rowSum colSum
    exact Finset.sum_congr rfl
      (fun iy hiy => ht ix iy (Finset.mem_range.mp hix) (Finset.mem_range.mp hiy))
  have hcount : totalCount n n h2 = totalCount n n h1 := by
    unfold totalCount
    calc ∑ ix ∈ Finset.range n, colSum n n h2 ix
        = ∑ ix ∈ Finset.range n, rowSum n h1 ix := Finset.sum_congr rfl hcol
      _ = ∑ ix ∈ Finset.range n, colSum n n h1 ix := by
          unfold rowSum colSum
          rw [Finset.sum_comm]
  have hx : xSac n n h2 = ySac n n h1 := by
    unfold xSac ySac
    exact Finset.sum_congr rfl (fun ix hix => by rw [hcol ix hix])
  have hy : ySac n n h2 = xSac n n h1 := by
    unfold xSac ySac
    exact Finset.sum_congr rfl (fun iy hiy => by rw [hrow iy hiy])
  have hxy : xySac n n h2 = xySac n n h1 := by
    unfold xySac
    rw [Finset.sum_comm]
    exact Finset.sum_congr rfl (fun u hu => Finset.sum_congr rfl (fun v hv => by
      rw [ht u v (Finset.mem_range.mp hu) (Finset.mem_range.mp hv)]))
  unfold reduceMI
  rw [hcount, hx, hy, hxy]
  split_ifs with hz
  · rfl
  · rw [add_comm (entH (ySac n n h1) (totalCount n n h1))
        (entH (xSac n n h1) (totalCount n n h1))]

/-- C7 (amended): when the two axes use identical bin parameters (equal
bin counts `n ≥ 1`, equal origin `o` and equal spacing `s` on both axes),
swapping the two input images leaves both MI and NMI exactly unchanged (in
the exact-arithmetic model) and the accumulated joint histogram of the
swapped run is the transpose of the original run's histogram.  (With
per-axis parameters that differ, neither holds — see the
counterexample.) -/
theorem C7_swap_symmetry_same_binning (n : ℕ) (o s : ℚ)
    (vs : List (Bool × ℚ × ℚ)) (hn : 1 ≤ n) :
    reduceMI n n (genAccum n n o s o s (swapVoxels vs) (fun _ => 0))
      = reduceMI n n (genAccum n n o s o s vs (fun _ => 0)) ∧
    ∀ ix iy : ℕ, ix < n → iy < n →
      cellAt n (genAccum n n o s o s (swapVoxels vs) (fun _ => 0)) ix iy
        = cellAt n (genAccum n n o s o s vs (fun _ => 0)) iy ix := by
  have ht := accum_swap_cell hn o s vs (fun _ => 0) (fun _ => 0)
    (fun _ _ _ _ => rfl)
  exact ⟨reduceMI_transpose _ _ ht, ht⟩

/-- Counterexample for C7 as stated: with 3×3 bins, x-axis spacing 1 but
y-axis spacing 2, the two-voxel input (0,1), (1,2) yields
`(MI, NMI) = (0, 1)`, while the swapped input yields
`(MI, NMI) = (log 2, 2)` — swapping the images changes both scalars (by
`log 2 ≈ 0.69`, far beyond floating-point tolerance) — and the swapped
histogram is not the transpose of the original. -/
theorem C7_counterexample :
    reduceMI 3 3 hC7a = (0, 1) ∧
    reduceMI 3 3 hC7b = (Real.log 2, 2) ∧
    (reduceMI 3 3 hC7a).1 ≠ (reduceMI 3 3 hC7b).1 ∧
    (reduceMI 3 3 hC7a).2 ≠ (reduceMI 3 3 hC7b).2 ∧
    cellAt 3 hC7b 1 1 ≠ cellAt 3 hC7a 1 1 := by
  have hL : Real.log 2 ≠ 0 := ne_of_gt (Real.log_pos one_lt_two)
  have hca : totalCount 3 3 hC7a ≠ 0 := by decide
  have hcb : totalCount 3 3 hC7b ≠ 0 := by decide
  have hna : totalCount 3 3 hC7a = 2 := by decide
  have hnb : totalCount 3 3 hC7b = 2 := by decide
  have hxa : xSac 3 3 hC7a = 0 := by
    unfold xSac
    apply Finset.sum_eq_zero
    intro ix hix
    fin_cases hix <;> exact plogp_of_le_one (by decide)
  have hxya : xySac 3 3 hC7a = 0 := by
    unfold xySac
    apply Finset.sum_eq_zero
    intro iy hiy
    apply Finset.sum_eq_zero
    intro ix hix
    fin_cases hiy <;> fin_cases hix <;> exact plogp_of_le_one (by decide)
  have hya : ySac 3 3 hC7a = 2 * Real.log 2 := by
    unfold ySac
    rw [Finset.sum_range_succ, Finset.sum_range_succ, Finset.sum_range_one]
    rw [show rowSum 3 hC7a 0 = 0 from by decide,
        show rowSum 3 hC7a 1 = 2 from by decide,
        show rowSum 3 hC7a 2 = 0 from by decide]
    rw [plogp_of_le_one (by decide), plogp_eq]
    push_cast
    ring
  have hxb : xSac 3 3 hC7b = 0 := by
    unfold xSac
    apply Finset.sum_eq_zero
    intro ix hix
    fin_cases hix <;> exact plogp_of_le_one (by decide)
  have hyb : ySac 3 3 hC7b = 0 := by
    unfold ySac
    apply Finset.sum_eq_zero
    intro iy hiy
    fin_cases hiy <;> exact plogp_of_le_one (by decide)
  have hxyb : xySac 3 3 hC7b = 0 := by
    unfold xySac
    apply Finset.sum_eq_zero
    intro iy hiy
    apply Finset.sum_eq_zero
    intro ix hix
    fin_cases hiy <;> fin_cases hix <;> exact plogp_of_le_one (by decide)
  have hA : reduceMI 3 3 hC7a = (0, 1) := by
    unfold reduceMI
    rw [if_neg hca, hna, hxa, hya, hxya]
    unfold entH
    push_cast
    simp only [neg_zero, zero_div, zero_add]
    refine Prod.ext ?_ ?_
    · ring
    · have hmid : -(2 * Real.log 2) / 2 + Real.log 2 = 0 := by ring
      rw [hmid, add_zero, div_self hL]
  have hB : reduceMI 3 3 hC7b = (Real.log 2, 2) := by
    unfold reduceMI
    rw [if_neg hcb, hnb, hxb, hyb, hxyb]
    unfold entH
    push_cast
    simp only [neg_zero, zero_div, zero_add]
    refine Prod.ext ?_ ?_
    · ring
    · rw [div_eq_iff hL]
      ring
  refine ⟨hA, hB, ?_, ?_, by decide⟩
  · rw [hA, hB]
    simp only
    exact fun he => hL he.symm
  · rw [hA, hB]
    simp only
    norm_num

/-- Witness for C7: one voxel pair (0, 1) with 2×2 bins and the identity
mapping on both axes. -/
theorem C7_witness : 1 ≤ 2 ∧
    (reduceMI 2 2 (genAccum 2 2 0 1 0 1 (swapVoxels [(true, 0, 1)]) (fun _ => 0))
       = reduceMI 2 2 (genAccum 2 2 0 1 0 1 [(true, 0, 1)] (fun _ => 0)) ∧
     ∀ ix iy : ℕ, ix < 2 → iy < 2 →
       cellAt 2 (genAccum 2 2 0 1 0 1 (swapVoxels [(true, 0, 1)]) (fun _ => 0)) ix iy
         = cellAt 2 (genAccum 2 2 0 1 0 1 [(true, 0, 1)] (fun _ => 0)) iy ix) :=
  ⟨by decide, C7_swap_symmetry_same_binning 2 0 1 [(true, 0, 1)] (by decide)⟩

theorem reduceMI_hC4_eval : reduceMI 2 2 hC4 = (0, (0 + 0) / 0) := by
  have hc : totalCount 2 2 hC4 ≠ 0 := by decide
  have hx : xSac 2 2 hC4 = 16 * Real.log 16 := by
    unfold xSac
    rw [Finset.sum_range_succ, Finset.sum_range_one]
    rw [show colSum 2 2 hC4 0 = 16 from by decide,
        show colSum 2 2 hC4 1 = 0 from by decide]
    simp only [plogp_eq]
    push_cast
    ring
  have hy : ySac 2 2 hC4 = 16 * Real.log 16 := by
    unfold ySac
    rw [Finset.sum_range_succ, Finset.sum_range_one]
    rw [show rowSum 2 hC4 0 = 0 from by decide,
        show rowSum 2 hC4 1 = 16 from by decide]
    simp only [plogp_eq]
    push_cast
    ring
  have hxy : xySac 2 2 hC4 = 16 * Real.log 16 := by
    unfold xySac
    simp only [Finset.sum_range_succ, Finset.sum_range_zero]
    rw [show cellAt 2 hC4 0 0 = 0 from by decide,
        show cellAt 2 hC4 1 0 = 0 from by decide,
        show cellAt 2 hC4 0 1 = 16 from by decide,
        show cellAt 2 hC4 1 1 = 0 from by decide]
    simp only [plogp_eq]
    push_cast
    ring
  have hent : entH (16 * Real.log 16) (totalCount 2 2 hC4) = 0 := by
    rw [show totalCount 2 2 hC4 = 16 from by decide]
    unfold entH
    push_cast
    ring
  unfold reduceMI
  rw [if_neg hc, hx, hy, hxy, hent]
  refine Prod.ext ?_ ?_
  · norm_num
  · rfl

/-- Counterexample for C4 as stated: in the all-zeros/all-ones 4×4×1
scenario the total count is 16, so the `N = 0` divide-by-zero guard does
not fire, and the computed NMI is `(0 + 0) / 0` — not the floor value 1.0
(in IEEE arithmetic this division yields NaN; in the exact real model
division by zero gives 0, and `0 ≠ 1`). -/
theorem C4_counterexample :
    totalCount 2 2 hC4 = 16 ∧ (reduceMI 2 2 hC4).2 ≠ 1 := by
  refine ⟨by decide, ?_⟩
  rw [reduceMI_hC4_eval]
  norm_num

/-- C4 (amended): two 4×4×1 byte images, A all zeros, B all ones, 2 bins
per axis, identity mapping: the joint histogram has a single nonzero cell
at `(0, 1)` with count 16 and `MI = 0`; but since the count is 16 the
`N = 0` guard is not triggered, and NMI is computed by the unguarded
division `(0 + 0) / 0` (`H(A,B) = 0`), not asserted to the floor 1.0. -/
theorem C4_scenario_division_by_zero :
    cellAt 2 hC4 0 0 = 0 ∧ cellAt 2 hC4 1 0 = 0 ∧
    cellAt 2 hC4 0 1 = 16 ∧ cellAt 2 hC4 1 1 = 0 ∧
    totalCount 2 2 hC4 = 16 ∧
    reduceMI 2 2 hC4 = (0, (0 + 0) / 0) :=
  ⟨by decide, by decide, by decide, by decide, by decide, reduceMI_hC4_eval⟩

/-- Counterexample for C8 as stated: with an unsupported output scalar
type and a 2×2 histogram with two diagonal counts, the reduction reports a
diagnostic for each of the two rows but does not abort: it still computes
and exposes `MI = log 2`, `NMI = 2`, and returns 1 (success). -/
theorem C8_counterexample :
    (reduceFull false 2 2 hC8).diagnostics = 2 ∧
    (reduceFull false 2 2 hC8).rowsWritten = 0 ∧
    (reduceFull false 2 2 hC8).ret = 1 ∧
    (reduceFull false 2 2 hC8).mi = Real.log 2 ∧
    (reduceFull false 2 2 hC8).nmi = 2 := by
  have hL : Real.log 2 ≠ 0 := ne_of_gt (Real.log_pos one_lt_two)
  have hc : totalCount 2 2 hC8 ≠ 0 := by decide
  have hx : xSac 2 2 hC8 = 0 := by
    unfold xSac
    apply Finset.sum_eq_zero
    intro ix hix
    fin_cases hix <;> exact plogp_of_le_one (by decide)
  have hy : ySac 2 2 hC8 = 0 := by
    unfold ySac
    apply Finset.sum_eq_zero
    intro iy hiy
    fin_cases hiy <;> exact plogp_of_le_one (by decide)
  have hxy : xySac 2 2 hC8 = 0 := by
    unfold xySac
    apply Finset.sum_eq_zero
    intro iy hiy
    apply Finset.sum_eq_zero
    intro ix hix
    fin_cases hiy <;> fin_cases hix <;> exact plogp_of_le_one (by decide)
  have hMI : reduceMI 2 2 hC8 = (Real.log 2, 2) := by
    unfold reduceMI
    rw [if_neg hc, show totalCount 2 2 hC8 = 2 from by decide, hx, hy, hxy]
    unfold entH
    push_cast
    simp only [neg_zero, zero_div, zero_add]
    refine Prod.ext ?_ ?_
    · ring
    · rw [div_eq_iff hL]
      ring
  refine ⟨rfl, rfl, rfl, ?_, ?_⟩
  · show (reduceMI 2 2 hC8).1 = Real.log 2
    rw [hMI]
  · show (reduceMI 2 2 hC8).2 = 2
    rw [hMI]

/-- C8 (amended): with an unsupported output scalar type, the reduction
writes no histogram rows and reports one diagnostic per row, but the run
is not aborted: MI and NMI are computed and exposed exactly as in a
supported-type run, and the method still returns 1. -/
theorem C8_unsupported_output_not_aborted (nx ny : ℕ) (h : ℤ → ℕ) :
    (reduceFull false nx ny h).rowsWritten = 0 ∧
    (reduceFull false nx ny h).diagnostics = ny ∧
    (reduceFull false nx ny h).mi = (reduceFull true nx ny h).mi ∧
    (reduceFull false nx ny h).nmi = (reduceFull true nx ny h).nmi ∧
    (reduceFull false nx ny h).ret = (reduceFull true nx ny h).ret :=
  ⟨rfl, rfl, rfl, rfl, rfl⟩

theorem fadd_fin_fin (a b : ℚ) : FpVal.fadd (.fin a) (.fin b) = .fin (a + b) := rfl

theorem fmul_fin_fin (a b : ℚ) : FpVal.fmul (.fin a) (.fin b) = .fin (a * b) := rfl

theorem flt_fin_fin (a b : ℚ) : FpVal.flt (.fin a) (.fin b) = decide (a < b) := rfl

theorem toInt_fin (a : ℚ) : FpVal.toInt (.fin a) = ctrunc a := rfl

theorem fadd_nan (x : FpVal) : FpVal.fadd .nan x = .nan := by cases x <;> rfl

theorem fmul_nan (x : FpVal) : FpVal.fmul .nan x = .nan := by cases x <;> rfl

theorem fadd_pinf_fin (b : ℚ) : FpVal.fadd .pinf (.fin b) = .pinf := rfl

theorem fadd_ninf_fin (b : ℚ) : FpVal.fadd .ninf (.fin b) = .ninf := rfl

theorem fmul_pinf_fin (b : ℚ) : FpVal.fmul .pinf (.fin b)
    = if 0 < b then .pinf else if b < 0 then .ninf else .nan := rfl

theorem fmul_ninf_fin (b : ℚ) : FpVal.fmul .ninf (.fin b)
    = if 0 < b then .ninf else if b < 0 then .pinf else .nan := rfl

theorem flt_fin_nan (a : ℚ) : FpVal.flt (.fin a) .nan = false := rfl

theorem flt_fin_pinf (a : ℚ) : FpVal.flt (.fin a) .pinf = true := rfl

theorem flt_fin_ninf (a : ℚ) : FpVal.flt (.fin a) .ninf = false := rfl

theorem flt_pinf (x : FpVal) : FpVal.flt .pinf x = false := by
  cases x <;> rfl

theorem ite_bool_false {α : Sort _} (a b : α) :
    (if (false : Bool) then a else b) = b := rfl

theorem ite_bool_true {α : Sort _} (a b : α) :
    (if (true : Bool) then a else b) = a := rfl

theorem genBinF_fin (o s : ℚ) (nb : ℕ) (q : ℚ) :
    genBinF o s nb (FpVal.fin q) = genBin o s nb q := by
  unfold genBinF genBin
  simp only [fadd_fin_fin, fmul_fin_fin, flt_fin_fin, decide_eq_true_eq]
  by_cases h1 : 0 < (q + -o) * (1 / s)
  · rw [if_pos h1, if_pos h1]
    simp only [flt_fin_fin, decide_eq_true_eq]
    by_cases h2 : (q + -o) * (1 / s) < (nb : ℚ) - 1
    · rw [if_pos h2, if_pos h2]
      simp only [fadd_fin_fin, toInt_fin]
    · rw [if_neg h2, if_neg h2]
      simp only [fadd_fin_fin, toInt_fin]
  · rw [if_neg h1, if_neg h1]
    simp only [flt_fin_fin, decide_eq_true_eq]
    by_cases h2 : (0 : ℚ) < (nb : ℚ) - 1
    · rw [if_pos h2, if_pos h2]
      simp only [fadd_fin_fin, toInt_fin]
    · rw [if_neg h2, if_neg h2]
      simp only [fadd_fin_fin, toInt_fin]

/-- C10: in the generic kernel's two-ternary clamp, a NaN intensity fails
the first comparison and is mapped to bin 0; +infinity saturates to the
top edge bin `nb - 1` and -infinity to bin 0 (for positive spacing); every
value — finite or not — yields a per-axis bin index in `[0, nb-1]`; and an
in-mask voxel always performs exactly one histogram increment, so no voxel
is skipped and no out-of-range per-axis index is ever produced. -/
theorem C10_nonfinite_clamp_safe (o s : ℚ) (nb : ℕ) (hnb : 1 ≤ nb) (hs : 0 < s) :
    genBinF o s nb FpVal.nan = 0 ∧
    genBinF o s nb FpVal.pinf = (nb : ℤ) - 1 ∧
    genBinF o s nb FpVal.ninf = 0 ∧
    (∀ v : FpVal, 0 ≤ genBinF o s nb v ∧ genBinF o s nb v ≤ (nb : ℤ) - 1) ∧
    (∀ (h : ℤ → ℕ) (a b : FpVal) (mx my : ℕ),
      genStepF mx my o s o s h (true, a, b)
        = bump h (genBinF o s my b * (my : ℤ) + genBinF o s mx a)) := by
  have hone : (1 : ℚ) ≤ (nb : ℚ) := by exact_mod_cast hnb
  have hscale : 0 < 1 / s := by positivity
  have hedge : ctrunc ((nb : ℚ) - 1 + 1 / 2) = (nb : ℤ) - 1 := by
    rw [ctrunc_eq_floor (by linarith), Int.floor_eq_iff]
    constructor
    · push_cast; linarith
    · push_cast; linarith
  have htail : FpVal.toInt (FpVal.fadd
      (if FpVal.flt (.fin 0) (.fin ((nb : ℚ) - 1)) then FpVal.fin 0
       else .fin ((nb : ℚ) - 1)) (.fin (1 / 2))) = 0 := by
    rw [flt_fin_fin]
    by_cases h2 : (0 : ℚ) < (nb : ℚ) - 1
    · rw [decide_eq_true h2, ite_bool_true, fadd_fin_fin, toInt_fin]
      decide
    · rw [decide_eq_false h2, ite_bool_false, fadd_fin_fin, toInt_fin]
      have hnb1 : nb = 1 := by
        have h3 : (nb : ℚ) ≤ 1 := by linarith
        have h4 : nb ≤ 1 := by exact_mod_cast h3
        omega
      subst hnb1
      rw [show ((1 : ℕ) : ℚ) - 1 + 1 / 2 = 1 / 2 by norm_num]
      decide
  have hnan : genBinF o s nb FpVal.nan = 0 := by
    unfold genBinF
    simp only [fadd_nan, fmul_nan, flt_fin_nan, ite_bool_false]
    exact htail
  have hninf : genBinF o s nb FpVal.ninf = 0 := by
    unfold genBinF
    simp only [fadd_ninf_fin, fmul_ninf_fin]
    rw [if_pos hscale]
    simp only [flt_fin_ninf, ite_bool_false]
    exact htail
  have hpinf : genBinF o s nb FpVal.pinf = (nb : ℤ) - 1 := by
    unfold genBinF
    simp only [fadd_pinf_fin, fmul_pinf_fin]
    rw [if_pos hscale]
    simp only [flt_fin_pinf, ite_bool_true, flt_pinf, ite_bool_false,
      fadd_fin_fin, toInt_fin]
    exact hedge
  refine ⟨hnan, hpinf, hninf, ?_, ?_⟩
  · intro v
    cases v with
    | fin q =>
      rw [genBinF_fin]
      exact ⟨genBin_nonneg o s hnb q, genBin_le o s hnb q⟩
    | pinf => rw [hpinf]; omega
    | ninf => rw [hninf]; omega
    | nan => rw [hnan]; omega
  · intro h a b mx my
    rfl

/-- Witness for C10 at 64 bins, origin 0, spacing 1. -/
theorem C10_witness : (1 ≤ 64 ∧ (0 : ℚ) < 1) ∧
    (genBinF 0 1 64 FpVal.nan = 0 ∧
     genBinF 0 1 64 FpVal.pinf = (64 : ℤ) - 1 ∧
     genBinF 0 1 64 FpVal.ninf = 0 ∧
     (∀ v : FpVal, 0 ≤ genBinF 0 1 64 v ∧ genBinF 0 1 64 v ≤ (64 : ℤ) - 1) ∧
     (∀ (h : ℤ → ℕ) (a b : FpVal) (mx my : ℕ),
       genStepF mx my 0 1 0 1 h (true, a, b)
         = bump h (genBinF 0 1 my b * (my : ℤ) + genBinF 0 1 mx a))) :=
  ⟨⟨by decide, by decide⟩,
   C10_nonfinite_clamp_safe 0 1 64 (by decide) (by decide)⟩

end VtkMI
